import Mathlib

/-!
Verification of the conversation-segmentation core of an Instagram
chat-export → LLM-dataset converter (`src/parser.py`, class `MessageParser`).

The embedding below mirrors the Python source:

* a raw JSON message record becomes `RawMessage`; a `timestamp_ms` that is
  absent is observationally identical to `0` in the source (every access is
  `message.get('timestamp_ms', 0)` and the only truthiness test treats `0`
  and absence alike), so the field is an `Int` with `0` standing for absence;
* the `content` key may be genuinely absent (`'content' not in message`), so
  it is an `Option String`;
* `share.share_text` is observable only as an optional string (the source
  reads it with `message['share'].get('share_text')` guarded by an
  `isinstance(..., dict)` check), so it is an `Option String`;
* the processed message's ISO-8601 `timestamp` string is produced by an
  injective rendering of `timestamp_ms` (`datetime.fromtimestamp(...).isoformat()`),
  and is `None` when `timestamp_ms` is falsy; it is modelled as `Option Int`
  carrying the underlying milliseconds;
* Python's float division `abs(ts2 - ts1) / 1000.0` is modelled exactly in `ℚ`;
* Python's stable `sorted(..., key=timestamp_ms)` is modelled by the stable,
  structurally recursive `List.insertionSort`;
* Python's `str.strip` / `str.lower` are modelled by `pyStrip` / `pyLower`
  below: character-list functions that strip whitespace from both ends,
  respectively lower-case every character.
-/

/-- Python's `str.lower`: lower-case every character. -/
def pyLower (s : String) : String := ⟨s.data.map Char.toLower⟩

/-- Python's `str.strip`: drop whitespace from both ends. -/
def pyStrip (s : String) : String :=
  ⟨((s.data.dropWhile Char.isWhitespace).reverse.dropWhile Char.isWhitespace).reverse⟩

/-- One inbound record as read from storage (a decoded JSON message). -/
structure RawMessage where
  sender_name : String
  content : Option String
  timestamp_ms : Int
  share_text : Option String
deriving Repr, DecidableEq

/-- A processed record, as built by `parse_conversations`. -/
structure Message where
  sender : String
  content : String
  timestamp_ms : Int
  timestamp : Option Int
deriving Repr, DecidableEq

/-- `MessageParser._replace_username`: scan the role → username mapping in
insertion order; the first role whose username matches the sender
case-insensitively replaces it, otherwise the original sender is kept. -/
def replaceUsername (user_mapping : List (String × String)) (username : String) : String :=
  match user_mapping.find? (fun p => pyLower p.2 == pyLower username) with
  | some p => p.1
  | none => username

/-- The fixed attachment placeholder literal compared against in
`parse_conversations`. -/
def ATTACHMENT_PLACEHOLDER : String := "enviaste un archivo adjunto."

/-- Construction of `processed_msg` inside `parse_conversations`: resolve the
sender, rewrite the attachment placeholder (the Python test
`share_text and share_text.strip()` is truthiness of the string and of its
strip), keep other content verbatim, and render the timestamp when
`timestamp_ms` is truthy. -/
def processMessage (user_mapping : List (String × String)) (message : RawMessage) : Message :=
  let sender := replaceUsername user_mapping message.sender_name
  let content_raw := message.content.getD ""
  let content :=
    if pyLower (pyStrip content_raw) = ATTACHMENT_PLACEHOLDER then
      match message.share_text with
      | some s =>
        if s ≠ "" ∧ pyStrip s ≠ "" then
          "[image from " ++ sender ++ ": " ++ pyStrip s ++ "]"
        else
          "[image from " ++ sender ++ "]"
      | none => "[image from " ++ sender ++ "]"
    else content_raw
  { sender := sender
    content := content
    timestamp_ms := message.timestamp_ms
    timestamp := if message.timestamp_ms ≠ 0 then some message.timestamp_ms else none }

/-- `len(set(msg['sender'] for msg in conversation))`. -/
def distinctSenders (conversation : List Message) : Nat :=
  ((conversation.map Message.sender).dedup).length

/-- `MessageParser._should_group_messages`: the time difference in seconds is
`abs(ts2 - ts1) / 1000.0` (exact rational arithmetic models the float); the
threshold is `time_threshold_seconds` once the current conversation has an
interchange (more than one distinct sender), and the hard-coded `60` before
that. -/
def shouldGroupMessages (msg1 msg2 : Message) (time_threshold_seconds : Int)
    (conversation : List Message) : Bool :=
  let ts1 := msg1.timestamp_ms
  let ts2 := msg2.timestamp_ms
  let time_diff : ℚ := ((|ts2 - ts1| : ℤ) : ℚ) / 1000
  let has_interchange : Bool := !conversation.isEmpty && decide (1 < distinctSenders conversation)
  let threshold : Int := if has_interchange then time_threshold_seconds else 60
  decide (time_diff ≤ (threshold : ℚ))

/-- `MessageParser._is_valid_conversation`. -/
def isValidConversation (conversation : List Message) (interchange_only : Bool) : Bool :=
  if !interchange_only then true
  else decide (2 ≤ distinctSenders conversation)

/-- The loop state of `parse_conversations`: the conversations emitted so far
and the currently open conversation. -/
structure SegState where
  conversations : List (List Message)
  current : List Message
deriving Repr, DecidableEq

/-- Closing the open conversation: it is emitted iff it passes
`_is_valid_conversation` (both close sites of the loop, and the final close,
run exactly this). -/
def closeConversation (conversations : List (List Message)) (current : List Message)
    (interchange_only : Bool) : List (List Message) :=
  if isValidConversation current interchange_only then conversations ++ [current]
  else conversations

/-- One iteration of the `for` loop of `parse_conversations`: skip records
without a `content` key; otherwise process the record and either start, cap,
extend or split the open conversation.  The `max_messages` cap
(`len(current_conversation) >= max_messages`) is tested before the gap test. -/
def segStep (user_mapping : List (String × String)) (time_threshold_seconds : Int)
    (interchange_only : Bool) (max_messages : Int)
    (st : SegState) (message : RawMessage) : SegState :=
  match message.content with
  | none => st
  | some _ =>
    let processed_msg := processMessage user_mapping message
    match st.current with
    | [] => { st with current := [processed_msg] }
    | a :: t =>
      if max_messages ≤ ((a :: t).length : Int) then
        { conversations := closeConversation st.conversations (a :: t) interchange_only
          current := [processed_msg] }
      else
        let last_msg := (a :: t).getLast (List.cons_ne_nil a t)
        if shouldGroupMessages last_msg processed_msg time_threshold_seconds (a :: t) then
          { st with current := (a :: t) ++ [processed_msg] }
        else
          { conversations := closeConversation st.conversations (a :: t) interchange_only
            current := [processed_msg] }

/-- The whole loop of `parse_conversations` over the sorted message list. -/
def segLoop (user_mapping : List (String × String)) (time_threshold_seconds : Int)
    (interchange_only : Bool) (max_messages : Int)
    (st : SegState) (messages : List RawMessage) : SegState :=
  messages.foldl (segStep user_mapping time_threshold_seconds interchange_only max_messages) st

/-- The sort key relation of `sorted(messages, key=lambda x: x.get('timestamp_ms', 0))`. -/
def rawTsLe (a b : RawMessage) : Prop := a.timestamp_ms ≤ b.timestamp_ms

instance : DecidableRel rawTsLe := fun a b => Int.decLe a.timestamp_ms b.timestamp_ms

instance : IsTotal RawMessage rawTsLe := ⟨fun a b => le_total a.timestamp_ms b.timestamp_ms⟩

instance : IsTrans RawMessage rawTsLe := ⟨fun _ _ _ h h' => le_trans h h'⟩

/-- The loop body of `_group_consecutive_messages`: the accumulator is the
`grouped` list plus the optional `current_group`. -/
def groupStep (acc : List Message × Option Message) (msg : Message) :
    List Message × Option Message :=
  match acc.2 with
  | none => (acc.1, some msg)
  | some current_group =>
    if current_group.sender = msg.sender then
      (acc.1, some { current_group with
        content := current_group.content ++ ", " ++ msg.content
        timestamp_ms := msg.timestamp_ms
        timestamp := msg.timestamp })
    else (acc.1 ++ [current_group], some msg)

/-- The final `if current_group is not None: grouped.append(current_group)` of
`_group_consecutive_messages`. -/
def closeGroups (acc : List Message × Option Message) : List Message :=
  match acc.2 with
  | none => acc.1
  | some current_group => acc.1 ++ [current_group]

/-- `MessageParser._group_consecutive_messages`: merge runs of adjacent
messages from the same sender, concatenating contents with `", "` and keeping
the timestamp of the last message of the run. -/
def groupConsecutiveMessages (conversation : List Message) : List Message :=
  if conversation.isEmpty then conversation
  else closeGroups (conversation.foldl groupStep ([], none))

/-- The loop of `parse_conversations` over the sorted stream, starting from the
empty state, followed by the final `if current_conversation:` close. -/
def segmentedConversations (user_mapping : List (String × String))
    (messages : List RawMessage) (time_threshold_seconds : Int)
    (interchange_only : Bool) (max_messages : Int) : List (List Message) :=
  let sorted_messages := List.insertionSort rawTsLe messages
  let st := segLoop user_mapping time_threshold_seconds interchange_only max_messages
    { conversations := [], current := [] } sorted_messages
  if st.current.isEmpty then st.conversations
  else closeConversation st.conversations st.current interchange_only

/-- `MessageParser.parse_conversations` applied to an already-extracted list
of raw message records (the `self.messages_data.get('messages', [])` step is
`messagesField` below): segment the sorted stream, then apply the
`group_consecutive` post-pass when requested. -/
def parseConversations (user_mapping : List (String × String))
    (messages : List RawMessage) (time_threshold_seconds : Int)
    (interchange_only : Bool) (max_messages : Int)
    (group_consecutive : Bool) : List (List Message) :=
  let conversations := segmentedConversations user_mapping messages time_threshold_seconds
    interchange_only max_messages
  if group_consecutive then conversations.map groupConsecutiveMessages else conversations

/-- The decoded content of one JSON file as the parser observes it after
`load_messages` on a single (non-directory) path stores it in
`self.messages_data`: it may or may not expose a `messages` field, it may
expose a `participants` field, and — when it is a record without a `messages`
field — the record itself can be read as one raw message (this is how the
directory branch of `load_messages` treats such a file). -/
structure FileData where
  messages : Option (List RawMessage)
  asRawMessage : RawMessage
  participants : List String
deriving Repr

/-- `self.messages_data.get('messages', [])` inside `parse_conversations`. -/
def messagesField (data : FileData) : List RawMessage :=
  data.messages.getD []

/-- `load_messages` on a single file stores the decoded value unchanged
(modulo the purely textual encoding repair); `parse_conversations` then reads
`messages` through `messagesField`.  `none` models an unloaded or falsy
`self.messages_data` (`if not self.messages_data: return []`). -/
def parseConversationsFromFile (user_mapping : List (String × String))
    (data : Option FileData) (time_threshold_seconds : Int)
    (interchange_only : Bool) (max_messages : Int)
    (group_consecutive : Bool) : List (List Message) :=
  match data with
  | none => []
  | some d =>
    parseConversations user_mapping (messagesField d) time_threshold_seconds
      interchange_only max_messages group_consecutive

/-- `messages_with_content` of `MessageParser.get_statistics`: the number of
records owning a `content` key. -/
def messagesWithContent (messages : List RawMessage) : Nat :=
  (messages.filter (fun msg => msg.content.isSome)).length

/-- Timestamp of the first message of a conversation (conversations produced
by the segmenter are never empty; `0` is a dummy for the empty list). -/
def firstTimestamp (conversation : List Message) : Int :=
  match conversation with
  | [] => 0
  | m :: _ => m.timestamp_ms

/-! ### Evaluation lemmas -/

/-- Comparing the exact rational `d / 1000` with an integer threshold is the
integer comparison `d ≤ 1000 * t`. -/
theorem qdiv1000_le_iff (d t : ℤ) : ((d : ℚ) / 1000 ≤ (t : ℚ)) ↔ d ≤ 1000 * t := by
  rw [div_le_iff₀ (by norm_num : (0:ℚ) < 1000), mul_comm]
  exact_mod_cast Iff.rfl

/-- `_should_group_messages` as a pure integer computation (used to evaluate
concrete runs: the rational division of the definition does not reduce in the
kernel). -/
theorem shouldGroupMessages_eval (msg1 msg2 : Message) (t : Int) (conversation : List Message) :
    shouldGroupMessages msg1 msg2 t conversation =
      decide (|msg2.timestamp_ms - msg1.timestamp_ms| ≤
        1000 * (if !conversation.isEmpty && decide (1 < distinctSenders conversation)
                then t else 60)) := by
  unfold shouldGroupMessages
  rcases h : (!conversation.isEmpty && decide (1 < distinctSenders conversation)) with _ | _ <;>
    simp only [h, if_true, if_false, Bool.false_eq_true] <;>
    rw [decide_eq_decide] <;>
    exact qdiv1000_le_iff _ _

/-! ### C1 — the gap / adaptive-threshold rule of the streaming partition -/

/-- C1: for a message carrying content, appended to a non-empty, non-full open
conversation, the appended/split decision is exactly: append iff
`|current.timestamp_ms − last.timestamp_ms| / 1000` is at most the effective
threshold, which is `time_threshold_seconds` when the open conversation already
has ≥ 2 distinct senders and the fixed 60 otherwise; on a split the open
conversation is closed through the validity filter and the new conversation
starts with the current message. -/
theorem c1_gap_threshold_rule (user_mapping : List (String × String))
    (t max_messages : Int) (interchange_only : Bool)
    (convs : List (List Message)) (cur : List Message) (m : RawMessage) (c : String)
    (hc : m.content = some c) (hne : cur ≠ []) (hlen : (cur.length : Int) < max_messages) :
    segStep user_mapping t interchange_only max_messages ⟨convs, cur⟩ m =
      (if ((|(processMessage user_mapping m).timestamp_ms -
              (cur.getLast hne).timestamp_ms| : ℤ) : ℚ) / 1000 ≤
            (((if 2 ≤ distinctSenders cur then t else 60) : ℤ) : ℚ)
       then ⟨convs, cur ++ [processMessage user_mapping m]⟩
       else ⟨(if isValidConversation cur interchange_only then convs ++ [cur] else convs),
             [processMessage user_mapping m]⟩) := by
  match cur, hne with
  | a :: t', _ =>
    simp only [segStep, hc]
    rw [if_neg (not_le.mpr hlen)]
    have hthr : ((if !(a :: t').isEmpty && decide (1 < distinctSenders (a :: t'))
        then t else 60) : Int) = (if 2 ≤ distinctSenders (a :: t') then t else 60) := by
      simp only [List.isEmpty_cons, Bool.not_false, Bool.true_and, decide_eq_true_eq]
      exact if_congr (by omega) rfl rfl
    have hcond : (shouldGroupMessages ((a :: t').getLast (List.cons_ne_nil a t'))
        (processMessage user_mapping m) t (a :: t') = true) ↔
        (((|(processMessage user_mapping m).timestamp_ms -
            ((a :: t').getLast (List.cons_ne_nil a t')).timestamp_ms| : ℤ) : ℚ) / 1000 ≤
          (((if 2 ≤ distinctSenders (a :: t') then t else 60) : ℤ) : ℚ)) := by
      rw [shouldGroupMessages]
      simp only [decide_eq_true_eq, hthr]
    rw [closeConversation]
    exact if_congr hcond rfl rfl

/-- A raw message record with the given sender, content and timestamp. -/
def msgAt (sender : String) (ts : Int) (c : String) : RawMessage :=
  ⟨sender, some c, ts, none⟩

/-- Witness for C1 at a concrete input: a second sender 15 s after a lone
first message is appended (one sender yet, so the effective threshold is the
extended 60 s even though `time_threshold_seconds = 30`). -/
theorem c1_gap_threshold_rule_witness :
    segStep [] 30 true 10 ⟨[], [⟨"alice", "m0", 0, none⟩]⟩ (msgAt "bob" 15000 "m1") =
      ⟨[], [⟨"alice", "m0", 0, none⟩, ⟨"bob", "m1", 15000, some 15000⟩]⟩ := by
  have h := c1_gap_threshold_rule [] 30 10 true [] [⟨"alice", "m0", 0, none⟩]
    (msgAt "bob" 15000 "m1") "m1" rfl (by decide) (by decide)
  rw [h]
  norm_num [processMessage, replaceUsername, msgAt, distinctSenders, ATTACHMENT_PLACEHOLDER]
  decide

/-! ### C6 — the attachment placeholder rule -/

/-- The attachment-content rule in the words of the amended claim: the
placeholder becomes `"[image from {sender}]"`, or
`"[image from {sender}: {share_text trimmed}]"` when a `share.share_text`
that is non-blank after stripping is present; other content is verbatim. -/
def attachmentContentSpec (sender c : String) (share_text : Option String) : String :=
  if pyLower (pyStrip c) = ATTACHMENT_PLACEHOLDER then
    match share_text with
    | some s =>
      if pyStrip s = "" then "[image from " ++ sender ++ "]"
      else "[image from " ++ sender ++ ": " ++ pyStrip s ++ "]"
    | none => "[image from " ++ sender ++ "]"
  else c

/-- Counterexample to C6 as stated: a record whose content is exactly
`"Enviaste un archivo adjunto."` and whose `share.share_text` is the
non-empty blank string `" "` is claimed to get the `"[image from …: …]"`
form; the code tests the *stripped* share text for truthiness and produces
the plain `"[image from alice]"` instead. -/
theorem c6_counterexample :
    (processMessage [] ⟨"alice", some "Enviaste un archivo adjunto.", 5, some " "⟩).content
        = "[image from alice]" ∧
      (processMessage [] ⟨"alice", some "Enviaste un archivo adjunto.", 5, some " "⟩).content
        ≠ "[image from alice:  ]" ∧
      (processMessage [] ⟨"alice", some "Enviaste un archivo adjunto.", 5, some " "⟩).content
        ≠ "[image from alice: ]" := by
  decide

/-- C6 (amended): for a record whose content is present, the processed content
follows `attachmentContentSpec`: the placeholder (compared after stripping and
case-folding) becomes the image marker, with the *stripped* share text added
only when it is non-blank, and any other content is carried verbatim. -/
theorem c6_placeholder_rule (user_mapping : List (String × String)) (m : RawMessage)
    (c : String) (hc : m.content = some c) :
    (processMessage user_mapping m).content =
      attachmentContentSpec (replaceUsername user_mapping m.sender_name) c m.share_text := by
  unfold processMessage attachmentContentSpec
  rw [hc]
  simp only [Option.getD_some]
  by_cases hp : pyLower (pyStrip c) = ATTACHMENT_PLACEHOLDER
  · rw [if_pos hp, if_pos hp]
    cases hs : m.share_text with
    | none => rfl
    | some s =>
      by_cases hb : pyStrip s = ""
      · simp [hb]
      · have hsne : s ≠ "" := fun h => hb (by rw [h]; rfl)
        simp [hb, hsne]
  · rw [if_neg hp, if_neg hp]

/-- Witness for C6 at a concrete input (Scenario D of the spec): the bare
placeholder with no share text becomes `"[image from bob]"`. -/
theorem c6_placeholder_rule_witness :
    (processMessage [] ⟨"bob", some "Enviaste un archivo adjunto.", 7, none⟩).content =
        attachmentContentSpec "bob" "Enviaste un archivo adjunto." none ∧
      attachmentContentSpec "bob" "Enviaste un archivo adjunto." none = "[image from bob]" :=
  ⟨c6_placeholder_rule [] ⟨"bob", some "Enviaste un archivo adjunto.", 7, none⟩
      "Enviaste un archivo adjunto." rfl,
    by decide⟩

/-! ### Grouping machinery -/

def mergeAdj (g m : Message) : Message :=
  { sender := g.sender
    content := g.content ++ ", " ++ m.content
    timestamp_ms := m.timestamp_ms
    timestamp := m.timestamp }

def runsMerge (g : Message) : List Message → List Message
  | [] => [g]
  | m :: rest =>
    if g.sender = m.sender then runsMerge (mergeAdj g m) rest
    else g :: runsMerge m rest

theorem closeGroups_foldl_groupStep (l : List Message) :
    ∀ (acc : List Message) (g : Message),
      closeGroups (l.foldl groupStep (acc, some g)) = acc ++ runsMerge g l := by
  induction l with
  | nil => intro acc g; rfl
  | cons m rest ih =>
    intro acc g
    rw [List.foldl_cons]
    by_cases h : g.sender = m.sender
    · rw [show groupStep (acc, some g) m = (acc, some (mergeAdj g m)) from by
        simp [groupStep, mergeAdj, h]]
      rw [ih acc _, runsMerge, if_pos h]
    · rw [show groupStep (acc, some g) m = (acc ++ [g], some m) from by simp [groupStep, h]]
      rw [ih (acc ++ [g]) m, runsMerge, if_neg h, List.append_assoc]
      rfl

theorem groupConsecutiveMessages_cons (m : Message) (rest : List Message) :
    groupConsecutiveMessages (m :: rest) = runsMerge m rest := by
  unfold groupConsecutiveMessages
  rw [if_neg (by simp)]
  rw [List.foldl_cons]
  rw [show groupStep ([], none) m = ([], some m) from rfl]
  exact closeGroups_foldl_groupStep rest [] m

theorem runsMerge_ne_nil : ∀ (l : List Message) (g : Message), runsMerge g l ≠ [] := by
  intro l
  induction l with
  | nil => intro g; simp [runsMerge]
  | cons m rest ih =>
    intro g
    rw [runsMerge]
    by_cases h : g.sender = m.sender
    · rw [if_pos h]; exact ih _
    · rw [if_neg h]; simp

theorem runsMerge_head_sender : ∀ (l : List Message) (g : Message),
    (runsMerge g l).head?.map Message.sender = some g.sender := by
  intro l
  induction l with
  | nil => intro g; rfl
  | cons m rest ih =>
    intro g
    rw [runsMerge]
    by_cases h : g.sender = m.sender
    · rw [if_pos h, ih (mergeAdj g m)]; rfl
    · rw [if_neg h]; rfl

theorem runsMerge_length_le : ∀ (l : List Message) (g : Message),
    (runsMerge g l).length ≤ l.length + 1 := by
  intro l
  induction l with
  | nil => intro g; simp [runsMerge]
  | cons m rest ih =>
    intro g
    rw [runsMerge]
    by_cases h : g.sender = m.sender
    · rw [if_pos h]
      exact le_trans (ih _) (by simp)
    · rw [if_neg h]
      simpa using ih m

theorem mem_sender_runsMerge : ∀ (l : List Message) (g : Message) (s : String),
    s ∈ (runsMerge g l).map Message.sender ↔ s ∈ (g :: l).map Message.sender := by
  intro l
  induction l with
  | nil => intro g s; rfl
  | cons m rest ih =>
    intro g s
    rw [runsMerge]
    by_cases h : g.sender = m.sender
    · rw [if_pos h, ih (mergeAdj g m)]
      simp only [List.map_cons, List.mem_cons, mergeAdj, h]
      tauto
    · rw [if_neg h]
      rw [List.map_cons, List.map_cons, List.mem_cons, List.mem_cons, ih m]

theorem runsMerge_chain_ne : ∀ (l : List Message) (g : Message),
    List.Chain' (fun a b => a.sender ≠ b.sender) (runsMerge g l) := by
  intro l
  induction l with
  | nil => intro g; simp [runsMerge]
  | cons m rest ih =>
    intro g
    rw [runsMerge]
    by_cases h : g.sender = m.sender
    · rw [if_pos h]; exact ih _
    · rw [if_neg h]
      rw [List.chain'_cons']
      refine ⟨?_, ih m⟩
      intro y hy
      have hhead := runsMerge_head_sender rest m
      rw [hy] at hhead
      simp only [Option.map_some', Option.some.injEq] at hhead
      rw [hhead]
      exact h

theorem runsMerge_ts_mem : ∀ (l : List Message) (g : Message), ∀ x ∈ runsMerge g l,
    ∃ y ∈ g :: l, x.timestamp_ms = y.timestamp_ms := by
  intro l
  induction l with
  | nil =>
    intro g x hx
    simp only [runsMerge, List.mem_singleton] at hx
    exact ⟨g, by simp, by rw [hx]⟩
  | cons m rest ih =>
    intro g x hx
    rw [runsMerge] at hx
    by_cases h : g.sender = m.sender
    · rw [if_pos h] at hx
      obtain ⟨y, hy, hts⟩ := ih (mergeAdj g m) x hx
      rcases List.mem_cons.mp hy with hy' | hy'
      · exact ⟨m, by simp, by rw [hts, hy']; rfl⟩
      · exact ⟨y, by simp [hy'], hts⟩
    · rw [if_neg h] at hx
      rcases List.mem_cons.mp hx with hx' | hx'
      · exact ⟨g, by simp, by rw [hx']⟩
      · obtain ⟨y, hy, hts⟩ := ih m x hx'
        rcases List.mem_cons.mp hy with hy' | hy'
        · exact ⟨m, by simp, by rw [hts, hy']⟩
        · exact ⟨y, by simp [hy'], hts⟩

theorem runsMerge_pairwise : ∀ (l : List Message) (g : Message),
    List.Pairwise (fun a b => a.timestamp_ms ≤ b.timestamp_ms) (g :: l) →
    List.Pairwise (fun a b => a.timestamp_ms ≤ b.timestamp_ms) (runsMerge g l) := by
  intro l
  induction l with
  | nil => intro g _; simp [runsMerge]
  | cons m rest ih =>
    intro g hp
    rw [List.pairwise_cons] at hp
    obtain ⟨hg, hmrest⟩ := hp
    rw [List.pairwise_cons] at hmrest
    obtain ⟨hm, hrest⟩ := hmrest
    rw [runsMerge]
    by_cases h : g.sender = m.sender
    · rw [if_pos h]
      refine ih (mergeAdj g m) ?_
      rw [List.pairwise_cons]
      exact ⟨fun b hb => hm b hb, hrest⟩
    · rw [if_neg h]
      rw [List.pairwise_cons]
      refine ⟨?_, ih m (List.pairwise_cons.mpr ⟨hm, hrest⟩)⟩
      intro b hb
      obtain ⟨y, hy, hts⟩ := runsMerge_ts_mem rest m b hb
      rw [hts]
      rcases List.mem_cons.mp hy with hy' | hy'
      · rw [hy']
        exact hg m (by simp)
      · exact hg y (by simp [hy'])

theorem intercalate_go_append (s : String) : ∀ (l : List String) (acc₁ acc₂ : String),
    String.intercalate.go (acc₁ ++ acc₂) s l = acc₁ ++ String.intercalate.go acc₂ s l := by
  intro l
  induction l with
  | nil => intro a b; rfl
  | cons c cs ih =>
    intro a b
    rw [show String.intercalate.go (a ++ b) s (c :: cs) =
        String.intercalate.go (a ++ b ++ s ++ c) s cs from rfl]
    rw [show a ++ b ++ s ++ c = a ++ (b ++ s ++ c) from by
      rw [String.append_assoc a b s, String.append_assoc a (b ++ s) c]]
    rw [ih]
    rfl

theorem intercalate_cons_cons (s a b : String) (l : List String) :
    String.intercalate s (a :: b :: l) = a ++ s ++ String.intercalate s (b :: l) := by
  show String.intercalate.go a s (b :: l) = a ++ s ++ String.intercalate.go b s l
  rw [show String.intercalate.go a s (b :: l) = String.intercalate.go (a ++ s ++ b) s l from rfl]
  exact intercalate_go_append s l (a ++ s) b

theorem intercalate_absorb (s a b : String) (l : List String) :
    String.intercalate s ((a ++ s ++ b) :: l) = String.intercalate s (a :: b :: l) := by
  cases l with
  | nil => rfl
  | cons c cs =>
    rw [intercalate_cons_cons s (a ++ s ++ b) c cs, intercalate_cons_cons s a b (c :: cs),
      intercalate_cons_cons s b c cs]
    simp only [String.append_assoc]

/-- The maximal runs of immediately adjacent messages sharing one resolved
sender (the wording of the `group_consecutive` post-pass); each run is its
first message plus the rest of the run. -/
def runsBySender : List Message → List (Message × List Message)
  | [] => []
  | m :: rest =>
    match runsBySender rest with
    | [] => [(m, [])]
    | (h, tl) :: rs =>
      if m.sender = h.sender then (m, h :: tl) :: rs
      else (m, []) :: (h, tl) :: rs

/-- Merging one run, in the claim's words: a single message whose content is
the run's contents concatenated with the two-character separator `", "` and
whose `timestamp_ms` and `timestamp` are those of the last message of the run. -/
def mergeRun (h : Message) (tl : List Message) : Message :=
  { sender := h.sender
    content := String.intercalate ", " (h.content :: tl.map (fun m => m.content))
    timestamp_ms := (tl.getLastD h).timestamp_ms
    timestamp := (tl.getLastD h).timestamp }

theorem runsBySender_cons_head (rest : List Message) (m : Message) :
    ∃ tl rs, runsBySender (m :: rest) = (m, tl) :: rs := by
  cases hr : runsBySender rest with
  | nil => exact ⟨[], [], by rw [runsBySender, hr]⟩
  | cons p rs =>
    obtain ⟨h, tl⟩ := p
    by_cases hs : m.sender = h.sender
    · exact ⟨h :: tl, rs, by rw [runsBySender, hr]; dsimp only; rw [if_pos hs]⟩
    · exact ⟨[], (h, tl) :: rs, by rw [runsBySender, hr]; dsimp only; rw [if_neg hs]⟩

theorem runsBySender_cons_congr (rest : List Message) (a b : Message)
    (hs : a.sender = b.sender) (tl : List Message) (rs : List (Message × List Message))
    (hb : runsBySender (b :: rest) = (b, tl) :: rs) :
    runsBySender (a :: rest) = (a, tl) :: rs := by
  rw [runsBySender] at hb ⊢
  cases hr : runsBySender rest with
  | nil =>
    rw [hr] at hb
    dsimp only at hb ⊢
    simp only [List.cons.injEq, Prod.mk.injEq] at hb
    obtain ⟨⟨-, htl⟩, hrs⟩ := hb
    rw [← htl, ← hrs]
  | cons p rs2 =>
    obtain ⟨h, tl2⟩ := p
    rw [hr] at hb
    dsimp only at hb ⊢
    by_cases hbh : b.sender = h.sender
    · rw [if_pos hbh] at hb
      rw [if_pos (hs ▸ hbh)]
      simp only [List.cons.injEq, Prod.mk.injEq] at hb
      obtain ⟨⟨-, htl⟩, hrs⟩ := hb
      rw [← htl, ← hrs]
    · rw [if_neg hbh] at hb
      rw [if_neg (by rw [hs]; exact hbh)]
      simp only [List.cons.injEq, Prod.mk.injEq] at hb
      obtain ⟨⟨-, htl⟩, hrs⟩ := hb
      rw [← htl, ← hrs]

theorem mergeRun_absorb (g m : Message) (tl : List Message) :
    mergeRun (mergeAdj g m) tl = mergeRun g (m :: tl) := by
  cases tl with
  | nil =>
    simp only [mergeRun, mergeAdj, List.map_nil, List.map_cons, List.getLastD_cons,
      List.getLastD_nil, Message.mk.injEq, eq_self_iff_true, true_and, and_true]
    exact intercalate_absorb ", " g.content m.content []
  | cons x xs =>
    simp only [mergeRun, mergeAdj, List.map_cons, List.getLastD_cons, Message.mk.injEq,
      eq_self_iff_true, true_and, and_true]
    exact intercalate_absorb ", " g.content m.content ((x :: xs).map (fun m => m.content))

theorem runsMerge_eq_mergeRun_runs : ∀ (l : List Message) (g : Message),
    runsMerge g l = (runsBySender (g :: l)).map (fun p => mergeRun p.1 p.2) := by
  intro l
  induction l with
  | nil => intro g; rfl
  | cons m rest ih =>
    intro g
    obtain ⟨tl, rs, hmr⟩ := runsBySender_cons_head rest m
    rw [runsMerge]
    by_cases hgm : g.sender = m.sender
    · rw [if_pos hgm]
      have hsender : (mergeAdj g m).sender = m.sender := hgm
      have ha := runsBySender_cons_congr rest (mergeAdj g m) m hsender tl rs hmr
      have hg : runsBySender (g :: m :: rest) = (g, m :: tl) :: rs := by
        rw [runsBySender, hmr]
        dsimp only
        rw [if_pos hgm]
      rw [ih (mergeAdj g m), ha, hg]
      simp only [List.map_cons]
      rw [mergeRun_absorb]
    · rw [if_neg hgm]
      have hg : runsBySender (g :: m :: rest) = (g, []) :: (m, tl) :: rs := by
        rw [runsBySender, hmr]
        dsimp only
        rw [if_neg hgm]
      rw [hg, ih m, hmr]
      simp only [List.map_cons]
      rfl

theorem groupConsecutiveMessages_eq_runs (conversation : List Message) :
    groupConsecutiveMessages conversation =
      (runsBySender conversation).map (fun p => mergeRun p.1 p.2) := by
  cases conversation with
  | nil => rfl
  | cons m rest => rw [groupConsecutiveMessages_cons, runsMerge_eq_mergeRun_runs]

/-! ### C7 — the `group_consecutive` post-pass -/

/-- C7: with `group_consecutive = true` every emitted conversation is
post-processed by `_group_consecutive_messages`, and that pass turns each
maximal run of immediately adjacent same-sender messages into a single message
whose content is the run's contents joined with the two-character separator
`", "` and whose `timestamp_ms`/`timestamp` are those of the run's last
message. -/
theorem c7_group_consecutive_pass :
    (∀ (user_mapping : List (String × String)) (messages : List RawMessage)
        (time_threshold_seconds max_messages : Int) (interchange_only : Bool),
      parseConversations user_mapping messages time_threshold_seconds interchange_only
          max_messages true =
        (parseConversations user_mapping messages time_threshold_seconds interchange_only
          max_messages false).map groupConsecutiveMessages)
    ∧ (∀ conversation : List Message,
      groupConsecutiveMessages conversation =
        (runsBySender conversation).map (fun p => mergeRun p.1 p.2)) := by
  constructor
  · intro um msgs t max io
    rfl
  · exact groupConsecutiveMessages_eq_runs

/-! ### C9 — grouping preserves the sender set -/

/-- C9: `_group_consecutive_messages` preserves the set of distinct resolved
senders (so the ≥ 2-distinct-senders property established by the validity
filter still holds after the pass, which runs after the filter), and no two
adjacent messages of its output share a sender. -/
theorem senders_toFinset_group (conversation : List Message) :
    ((groupConsecutiveMessages conversation).map Message.sender).toFinset =
      ((conversation.map Message.sender)).toFinset := by
  cases conversation with
  | nil => rfl
  | cons m rest =>
    rw [groupConsecutiveMessages_cons]
    ext s
    simp only [List.mem_toFinset]
    exact mem_sender_runsMerge rest m s

theorem distinctSenders_group (conversation : List Message) :
    distinctSenders (groupConsecutiveMessages conversation) = distinctSenders conversation := by
  have hc := congrArg Finset.card (senders_toFinset_group conversation)
  rwa [List.card_toFinset, List.card_toFinset] at hc

theorem c9_grouping_preserves_interchange :
    ∀ conversation : List Message,
      ((groupConsecutiveMessages conversation).map Message.sender).toFinset =
          ((conversation.map Message.sender)).toFinset ∧
        distinctSenders (groupConsecutiveMessages conversation) = distinctSenders conversation ∧
        (2 ≤ distinctSenders conversation →
          2 ≤ distinctSenders (groupConsecutiveMessages conversation)) ∧
        List.Chain' (fun a b => a.sender ≠ b.sender) (groupConsecutiveMessages conversation) := by
  intro conversation
  refine ⟨senders_toFinset_group conversation, distinctSenders_group conversation,
    by rw [distinctSenders_group]; exact fun h => h, ?_⟩
  cases conversation with
  | nil => simp [groupConsecutiveMessages]
  | cons m rest =>
    rw [groupConsecutiveMessages_cons]
    exact runsMerge_chain_ne rest m

/-! ### C3 — the interchange validity filter -/

theorem closeConversation_valid (convs : List (List Message)) (cur : List Message)
    (h : ∀ c ∈ convs, 2 ≤ distinctSenders c) :
    ∀ c ∈ closeConversation convs cur true, 2 ≤ distinctSenders c := by
  intro c hc
  unfold closeConversation at hc
  split at hc
  · rcases List.mem_append.mp hc with h1 | h1
    · exact h c h1
    · have hcur : c = cur := by simpa using h1
      subst hcur
      rename_i hv
      unfold isValidConversation at hv
      simpa using hv
  · exact h c hc

theorem segStep_valid (um : List (String × String)) (t max : Int) (st : SegState)
    (m : RawMessage) (h : ∀ c ∈ st.conversations, 2 ≤ distinctSenders c) :
    ∀ c ∈ (segStep um t true max st m).conversations, 2 ≤ distinctSenders c := by
  unfold segStep
  cases m.content with
  | none => exact h
  | some c0 =>
    cases st.current with
    | nil => exact h
    | cons a t' =>
      dsimp only
      split
      · exact closeConversation_valid st.conversations (a :: t') h
      · split
        · exact h
        · exact closeConversation_valid st.conversations (a :: t') h

theorem segLoop_valid (um : List (String × String)) (t max : Int) :
    ∀ (msgs : List RawMessage) (st : SegState),
      (∀ c ∈ st.conversations, 2 ≤ distinctSenders c) →
      ∀ c ∈ (segLoop um t true max st msgs).conversations, 2 ≤ distinctSenders c := by
  intro msgs
  induction msgs with
  | nil => intro st h; exact h
  | cons m rest ih =>
    intro st h
    exact ih (segStep um t true max st m) (segStep_valid um t max st m h)

theorem segmentedConversations_valid (um : List (String × String)) (msgs : List RawMessage)
    (t max : Int) :
    ∀ c ∈ segmentedConversations um msgs t true max, 2 ≤ distinctSenders c := by
  intro c hc
  unfold segmentedConversations at hc
  have hst := segLoop_valid um t max (List.insertionSort rawTsLe msgs)
    ⟨[], []⟩ (by intro x hx; cases hx)
  dsimp only at hc
  split at hc
  · exact hst c hc
  · exact closeConversation_valid _ _ hst c hc

/-- C3: when `interchange_only` is true every conversation in the output of
`parse_conversations` — the final open conversation included — has at least
two distinct resolved senders; when it is false `_is_valid_conversation`
accepts every conversation, so every closed conversation is emitted. -/
theorem c3_interchange_filter (um : List (String × String)) (msgs : List RawMessage)
    (t max : Int) (gc : Bool) :
    (∀ conv ∈ parseConversations um msgs t true max gc, 2 ≤ distinctSenders conv)
    ∧ (∀ conversation : List Message, isValidConversation conversation false = true) := by
  constructor
  · intro conv hconv
    unfold parseConversations at hconv
    dsimp only at hconv
    have hseg := segmentedConversations_valid um msgs t max
    cases gc with
    | false => exact hseg conv hconv
    | true =>
      simp only [if_true] at hconv
      obtain ⟨c0, hc0, hmap⟩ := List.mem_map.mp hconv
      have h2 := hseg c0 hc0
      rw [← hmap]
      rw [distinctSenders_group]
      exact h2
  · intro conversation
    rfl

/-! ### C10 — the content filter -/

/-- C10: a record is skipped by the segmentation loop exactly when it has no
`content` key: a `content`-less record leaves the loop state unchanged; a
record owning a `content` key — the empty string included — is processed and
always lands at the end of the open conversation, an empty content staying
empty; and such a record is counted by `messages_with_content`. -/
theorem c10_content_filter (um : List (String × String)) (t max : Int) (io : Bool) :
    (∀ (st : SegState) (m : RawMessage), m.content = none →
      segStep um t io max st m = st)
    ∧ (∀ (st : SegState) (m : RawMessage) (c : String), m.content = some c →
      ((segStep um t io max st m).current).getLast? = some (processMessage um m))
    ∧ (∀ m : RawMessage, m.content = some "" → (processMessage um m).content = "")
    ∧ (∀ (m : RawMessage) (rest : List RawMessage), m.content = some "" →
      messagesWithContent (m :: rest) = messagesWithContent rest + 1) := by
  refine ⟨?_, ?_, ?_, ?_⟩
  · intro st m h
    unfold segStep
    rw [h]
  · intro st m c h
    unfold segStep
    rw [h]
    dsimp only
    cases st.current with
    | nil => rfl
    | cons a t' =>
      dsimp only
      split
      · rfl
      · split
        · exact List.getLast?_concat _
        · rfl
  · intro m h
    unfold processMessage
    rw [h]
    dsimp only
    rw [if_neg (by decide)]
    rfl
  · intro m rest h
    unfold messagesWithContent
    rw [List.filter_cons, if_pos (by rw [h]; rfl)]
    simp

/-! ### C2 — the max_messages cap -/

theorem closeConversation_mem (convs : List (List Message)) (cur : List Message) (io : Bool) :
    ∀ c ∈ closeConversation convs cur io, c ∈ convs ∨ c = cur := by
  intro c hc
  unfold closeConversation at hc
  split at hc
  · rcases List.mem_append.mp hc with h1 | h1
    · exact Or.inl h1
    · exact Or.inr (by simpa using h1)
  · exact Or.inl hc

/-- Counterexample to C2 as stated: the per-conversation length bound does not
hold for every `max_messages` parameter — with `max_messages = 0` (and
`interchange_only = false`) a single message still becomes a conversation of
length `1 > 0`, since the cap can only close the open conversation once it
holds at least one message. -/
theorem c2_counterexample :
    ¬ (∀ conv ∈ parseConversations [] [msgAt "alice" 0 "a"] 30 false 0 false,
        (conv.length : Int) ≤ 0) := by
  intro hall
  have hmem : [⟨"alice", "a", 0, none⟩] ∈
      parseConversations [] [msgAt "alice" 0 "a"] 30 false 0 false := by decide
  have hlen := hall _ hmem
  norm_num at hlen

theorem segStep_length (um : List (String × String)) (t max : Int) (io : Bool)
    (hmax : 1 ≤ max) (st : SegState) (m : RawMessage)
    (hcur : (st.current.length : Int) ≤ max)
    (hconvs : ∀ c ∈ st.conversations, (c.length : Int) ≤ max) :
    ((segStep um t io max st m).current.length : Int) ≤ max ∧
      ∀ c ∈ (segStep um t io max st m).conversations, (c.length : Int) ≤ max := by
  have hclose : ∀ c ∈ closeConversation st.conversations st.current io,
      (c.length : Int) ≤ max := by
    intro c hc
    rcases closeConversation_mem st.conversations st.current io c hc with h1 | h1
    · exact hconvs c h1
    · rw [h1]; exact hcur
  unfold segStep
  cases m.content with
  | none => exact ⟨hcur, hconvs⟩
  | some c0 =>
    cases hc : st.current with
    | nil => exact ⟨by simp; omega, hconvs⟩
    | cons a t' =>
      dsimp only
      split
      · refine ⟨by simp; omega, ?_⟩
        rw [← hc]
        exact hclose
      · rename_i hcap
        split
        · constructor
          · rw [hc] at hcur
            simp only [List.length_append, List.length_cons, List.length_nil] at hcap hcur ⊢
            push_cast at hcap hcur ⊢
            omega
          · exact hconvs
        · refine ⟨by simp; omega, ?_⟩
          rw [← hc]
          exact hclose

theorem segLoop_length (um : List (String × String)) (t max : Int) (io : Bool)
    (hmax : 1 ≤ max) :
    ∀ (msgs : List RawMessage) (st : SegState),
      (st.current.length : Int) ≤ max →
      (∀ c ∈ st.conversations, (c.length : Int) ≤ max) →
      ((segLoop um t io max st msgs).current.length : Int) ≤ max ∧
        ∀ c ∈ (segLoop um t io max st msgs).conversations, (c.length : Int) ≤ max := by
  intro msgs
  induction msgs with
  | nil => intro st h1 h2; exact ⟨h1, h2⟩
  | cons m rest ih =>
    intro st h1 h2
    obtain ⟨h1', h2'⟩ := segStep_length um t max io hmax st m h1 h2
    exact ih (segStep um t io max st m) h1' h2'

theorem group_length_le (conversation : List Message) :
    (groupConsecutiveMessages conversation).length ≤ conversation.length := by
  cases conversation with
  | nil => exact le_refl 0
  | cons m rest =>
    rw [groupConsecutiveMessages_cons, List.length_cons]
    exact runsMerge_length_le rest m

/-- C2 (amended): for every *positive* `max_messages`, every conversation in
the output of `parse_conversations` has at most `max_messages` messages (for
`max_messages ≤ 0` the bound fails, see the counterexample: a conversation
always receives at least one message before the cap can close it); and the
cap is tested before the gap/interchange test, so whenever the open
conversation already holds at least `max_messages` messages, the next
content-bearing message closes it and starts a new conversation regardless of
the time gap. -/
theorem c2_max_messages_cap (um : List (String × String)) (msgs : List RawMessage)
    (t max : Int) (io gc : Bool) (hmax : 1 ≤ max) :
    (∀ conv ∈ parseConversations um msgs t io max gc, (conv.length : Int) ≤ max)
    ∧ (∀ (convs : List (List Message)) (cur : List Message) (m : RawMessage) (c : String),
      m.content = some c → cur ≠ [] → max ≤ (cur.length : Int) →
      segStep um t io max ⟨convs, cur⟩ m =
        ⟨closeConversation convs cur io, [processMessage um m]⟩) := by
  constructor
  · intro conv hconv
    have hseg : ∀ c ∈ segmentedConversations um msgs t io max, (c.length : Int) ≤ max := by
      intro c hc
      unfold segmentedConversations at hc
      dsimp only at hc
      obtain ⟨h1, h2⟩ := segLoop_length um t max io hmax
        (List.insertionSort rawTsLe msgs) ⟨[], []⟩ (by simp; omega) (by intro x hx; cases hx)
      split at hc
      · exact h2 c hc
      · rcases closeConversation_mem _ _ _ c hc with hm | hm
        · exact h2 c hm
        · rw [hm]; exact h1
    unfold parseConversations at hconv
    dsimp only at hconv
    cases gc with
    | false => exact hseg conv hconv
    | true =>
      simp only [if_true] at hconv
      obtain ⟨c0, hc0, hmap⟩ := List.mem_map.mp hconv
      rw [← hmap]
      calc ((groupConsecutiveMessages c0).length : Int) ≤ (c0.length : Int) := by
            exact_mod_cast group_length_le c0
        _ ≤ max := hseg c0 hc0
  · intro convs cur m c hm hne hfull
    unfold segStep
    rw [hm]
    dsimp only
    match cur, hne with
    | a :: t', _ =>
      dsimp only
      rw [if_pos hfull]

/-- Witness for C2 (amended) at a concrete input: with `max_messages = 1` the
bound and the cap-priority rule hold for a concrete run. -/
theorem c2_max_messages_cap_witness :
    (∀ conv ∈ parseConversations [] [msgAt "alice" 0 "a"] 30 false 1 false,
        (conv.length : Int) ≤ 1)
    ∧ (∀ (convs : List (List Message)) (cur : List Message) (m : RawMessage) (c : String),
      m.content = some c → cur ≠ [] → 1 ≤ (cur.length : Int) →
      segStep [] 30 false 1 ⟨convs, cur⟩ m =
        ⟨closeConversation convs cur false, [processMessage [] m]⟩) :=
  c2_max_messages_cap [] [msgAt "alice" 0 "a"] 30 1 false false (by decide)

/-! ### C5 — the four-message scenario at threshold 10 -/

/-- The four-message input of the spec's scenarios: two senders alternating at
relative offsets 0 s, 15 s, 20 s and 90 s. -/
def scenarioMessages : List RawMessage :=
  [msgAt "alice" 0 "m0", msgAt "bob" 15000 "m1",
   msgAt "alice" 20000 "m2", msgAt "bob" 90000 "m3"]

/-- Counterexample to C5 as stated: with `time_threshold_seconds = 10` the
parser does NOT produce 3 conversations on the scenario input — the 0 s and
15 s messages stay together because only one sender has spoken yet, so the
extended 60 s threshold applies to that gap, and the lone 90 s message is then
discarded by the interchange filter; exactly one conversation comes out. -/
theorem c5_counterexample :
    (parseConversations [] scenarioMessages 10 true 10 false).length ≠ 3 := by
  norm_num [parseConversations, segmentedConversations, segLoop, segStep,
    shouldGroupMessages_eval, processMessage, replaceUsername, closeConversation,
    isValidConversation, distinctSenders, List.insertionSort, List.orderedInsert,
    rawTsLe, msgAt, scenarioMessages, ATTACHMENT_PLACEHOLDER, pyLower, pyStrip]
  decide

/-- C5 (amended): on the scenario input with `time_threshold_seconds = 10`
(other parameters at their defaults) the parser produces exactly one
conversation, holding the messages at 0 s, 15 s and 20 s; the 0 s/15 s gap is
kept inside one conversation by the extended 60 s pre-interchange threshold,
and the single-sender conversation holding the 90 s message is discarded by
the interchange filter. -/
theorem c5_scenario_threshold_10 :
    parseConversations [] scenarioMessages 10 true 10 false =
      [[⟨"alice", "m0", 0, none⟩, ⟨"bob", "m1", 15000, some 15000⟩,
        ⟨"alice", "m2", 20000, some 20000⟩]] := by
  norm_num [parseConversations, segmentedConversations, segLoop, segStep,
    shouldGroupMessages_eval, processMessage, replaceUsername, closeConversation,
    isValidConversation, distinctSenders, List.insertionSort, List.orderedInsert,
    rawTsLe, msgAt, scenarioMessages, ATTACHMENT_PLACEHOLDER, pyLower, pyStrip]
  decide

/-! ### C8 — a single file without a `messages` field -/

/-- Counterexample to C8 as stated: when the decoded value of a single (non
directory) file has no `messages` field, the segmentation sees the EMPTY
collection — `self.messages_data.get('messages', [])` — and not the decoded
value as one pre-formed message record; that treatment exists only in the
directory branch of `load_messages`. -/
theorem c8_counterexample :
    messagesField ⟨none, msgAt "alice" 1000 "hello", []⟩ = [] ∧
      messagesField ⟨none, msgAt "alice" 1000 "hello", []⟩ ≠ [msgAt "alice" 1000 "hello"] ∧
      parseConversationsFromFile [] (some ⟨none, msgAt "alice" 1000 "hello", []⟩)
        30 false 10 false = [] := by
  refine ⟨rfl, by decide, rfl⟩

/-- C8 (amended): when `load_messages` stores the decoded value of a single
file and that value has no `messages` field, the segmentation extracts the
empty message collection — the decoded value is not treated as a single
pre-formed message — and `parse_conversations` returns no conversations. -/
theorem c8_single_file_no_messages_field (um : List (String × String)) (d : FileData)
    (t max : Int) (io gc : Bool) (hd : d.messages = none) :
    messagesField d = [] ∧
      parseConversationsFromFile um (some d) t io max gc = [] := by
  have hf : messagesField d = [] := by unfold messagesField; rw [hd]; rfl
  refine ⟨hf, ?_⟩
  unfold parseConversationsFromFile
  dsimp only
  rw [hf]
  cases gc <;> rfl

/-- Witness for C8 (amended) at a concrete decoded file. -/
theorem c8_single_file_no_messages_field_witness :
    messagesField ⟨none, msgAt "bob" 5 "x", ["bob"]⟩ = [] ∧
      parseConversationsFromFile [] (some ⟨none, msgAt "bob" 5 "x", ["bob"]⟩)
        30 true 10 false = [] :=
  c8_single_file_no_messages_field [] ⟨none, msgAt "bob" 5 "x", ["bob"]⟩ 30 10 true false rfl

/-! ### C4 — chronological ordering of the output -/

/-- All messages held by the loop state, in emission order: the flattened
emitted conversations followed by the open conversation. -/
def stateMsgs (st : SegState) : List Message :=
  st.conversations.flatten ++ st.current

theorem flatten_closeConversation_sublist (convs : List (List Message))
    (cur : List Message) (io : Bool) :
    (closeConversation convs cur io).flatten.Sublist (convs.flatten ++ cur) := by
  unfold closeConversation
  split
  · simp
  · exact List.sublist_append_left _ _

theorem segStep_ordering (um : List (String × String)) (t max : Int) (io : Bool)
    (st : SegState) (m : RawMessage) (rest : List RawMessage)
    (hI1 : List.Pairwise (fun x y => x.timestamp_ms ≤ y.timestamp_ms) (stateMsgs st))
    (hI2 : ∀ x ∈ stateMsgs st, ∀ r ∈ m :: rest, x.timestamp_ms ≤ r.timestamp_ms)
    (hI3 : ∀ c ∈ st.conversations, c ≠ [])
    (hsorted : ∀ r ∈ rest, m.timestamp_ms ≤ r.timestamp_ms) :
    List.Pairwise (fun x y => x.timestamp_ms ≤ y.timestamp_ms)
        (stateMsgs (segStep um t io max st m)) ∧
      (∀ x ∈ stateMsgs (segStep um t io max st m), ∀ r ∈ rest,
        x.timestamp_ms ≤ r.timestamp_ms) ∧
      ∀ c ∈ (segStep um t io max st m).conversations, c ≠ [] := by
  have hP : List.Pairwise (fun x y => x.timestamp_ms ≤ y.timestamp_ms)
      (stateMsgs st ++ [processMessage um m]) := by
    rw [List.pairwise_append]
    refine ⟨hI1, List.pairwise_singleton _ _, ?_⟩
    intro x hx y hy
    rw [List.mem_singleton] at hy
    rw [hy]
    exact hI2 x hx m (List.mem_cons_self m rest)
  have hB : ∀ x ∈ stateMsgs st ++ [processMessage um m], ∀ r ∈ rest,
      x.timestamp_ms ≤ r.timestamp_ms := by
    intro x hx r hr
    rcases List.mem_append.mp hx with h1 | h1
    · exact hI2 x h1 r (List.mem_cons_of_mem m hr)
    · rw [List.mem_singleton] at h1
      rw [h1]
      exact hsorted r hr
  have hfromSub : ∀ st' : SegState,
      (stateMsgs st').Sublist (stateMsgs st ++ [processMessage um m]) →
      (∀ c ∈ st'.conversations, c ≠ []) →
      List.Pairwise (fun x y => x.timestamp_ms ≤ y.timestamp_ms) (stateMsgs st') ∧
        (∀ x ∈ stateMsgs st', ∀ r ∈ rest, x.timestamp_ms ≤ r.timestamp_ms) ∧
        ∀ c ∈ st'.conversations, c ≠ [] := by
    intro st' hsub hne
    exact ⟨hP.sublist hsub, fun x hx => hB x (hsub.subset hx), hne⟩
  have hcloseNe : ∀ cur : List Message, cur ≠ [] →
      ∀ c ∈ closeConversation st.conversations cur io, c ≠ [] := by
    intro cur hcur c hc
    rcases closeConversation_mem st.conversations cur io c hc with h1 | h1
    · exact hI3 c h1
    · rw [h1]; exact hcur
  unfold segStep
  cases hcont : m.content with
  | none =>
    refine ⟨hI1, ?_, hI3⟩
    intro x hx r hr
    exact hI2 x hx r (List.mem_cons_of_mem m hr)
  | some c0 =>
    cases hcur : st.current with
    | nil =>
      refine hfromSub _ ?_ hI3
      unfold stateMsgs
      dsimp only
      rw [hcur]
      simp
    | cons a t' =>
      dsimp only
      have hsubClose : ((closeConversation st.conversations (a :: t') io).flatten ++
          [processMessage um m]).Sublist (stateMsgs st ++ [processMessage um m]) := by
        rw [stateMsgs, hcur]
        exact (flatten_closeConversation_sublist st.conversations (a :: t') io).append
          (List.Sublist.refl _)
      split
      · exact hfromSub _ hsubClose (hcloseNe (a :: t') (List.cons_ne_nil a t'))
      · split
        · refine hfromSub _ ?_ hI3
          show (st.conversations.flatten ++ ((a :: t') ++ [processMessage um m])).Sublist _
          rw [stateMsgs, hcur, List.append_assoc]
        · exact hfromSub _ hsubClose (hcloseNe (a :: t') (List.cons_ne_nil a t'))

theorem segLoop_ordering (um : List (String × String)) (t max : Int) (io : Bool) :
    ∀ (msgs : List RawMessage) (st : SegState),
      List.Pairwise rawTsLe msgs →
      List.Pairwise (fun x y => x.timestamp_ms ≤ y.timestamp_ms) (stateMsgs st) →
      (∀ x ∈ stateMsgs st, ∀ r ∈ msgs, x.timestamp_ms ≤ r.timestamp_ms) →
      (∀ c ∈ st.conversations, c ≠ []) →
      List.Pairwise (fun x y => x.timestamp_ms ≤ y.timestamp_ms)
          (stateMsgs (segLoop um t io max st msgs)) ∧
        ∀ c ∈ (segLoop um t io max st msgs).conversations, c ≠ [] := by
  intro msgs
  induction msgs with
  | nil => intro st _ h1 _ h3; exact ⟨h1, h3⟩
  | cons m rest ih =>
    intro st hsorted h1 h2 h3
    rw [List.pairwise_cons] at hsorted
    obtain ⟨hm, hrest⟩ := hsorted
    obtain ⟨h1', h2', h3'⟩ := segStep_ordering um t max io st m rest h1 h2 h3 hm
    exact ih (segStep um t io max st m) hrest h1' h2' h3'

theorem segmentedConversations_ordering (um : List (String × String))
    (msgs : List RawMessage) (t max : Int) (io : Bool) :
    List.Pairwise (fun x y => x.timestamp_ms ≤ y.timestamp_ms)
        (segmentedConversations um msgs t io max).flatten ∧
      ∀ c ∈ segmentedConversations um msgs t io max, c ≠ [] := by
  have hsorted : List.Pairwise rawTsLe (List.insertionSort rawTsLe msgs) :=
    List.sorted_insertionSort rawTsLe msgs
  obtain ⟨h1, h3⟩ := segLoop_ordering um t max io (List.insertionSort rawTsLe msgs)
    ⟨[], []⟩ hsorted (by simp [stateMsgs]) (by simp [stateMsgs]) (by intro c hc; cases hc)
  unfold segmentedConversations
  dsimp only
  split
  · rename_i hemp
    constructor
    · exact h1.sublist (by rw [stateMsgs]; exact List.sublist_append_left _ _)
    · exact h3
  · rename_i hemp
    have hne : (segLoop um t io max ⟨[], []⟩ (List.insertionSort rawTsLe msgs)).current ≠ [] := by
      intro hc
      exact hemp (by rw [hc]; rfl)
    constructor
    · exact h1.sublist (by rw [stateMsgs] at *; exact flatten_closeConversation_sublist _ _ io)
    · intro c hc
      rcases closeConversation_mem _ _ _ c hc with hin | heq
      · exact h3 c hin
      · rw [heq]; exact hne

theorem group_ne_nil (c : List Message) (h : c ≠ []) :
    groupConsecutiveMessages c ≠ [] := by
  cases c with
  | nil => exact absurd rfl h
  | cons m rest =>
    rw [groupConsecutiveMessages_cons]
    exact runsMerge_ne_nil rest m

theorem group_ts_mem (c : List Message) :
    ∀ x ∈ groupConsecutiveMessages c, ∃ y ∈ c, x.timestamp_ms = y.timestamp_ms := by
  cases c with
  | nil => intro x hx; cases hx
  | cons m rest =>
    rw [groupConsecutiveMessages_cons]
    exact runsMerge_ts_mem rest m

theorem group_pairwise_ts (c : List Message)
    (h : List.Pairwise (fun x y => x.timestamp_ms ≤ y.timestamp_ms) c) :
    List.Pairwise (fun x y => x.timestamp_ms ≤ y.timestamp_ms)
      (groupConsecutiveMessages c) := by
  cases c with
  | nil => exact h
  | cons m rest =>
    rw [groupConsecutiveMessages_cons]
    exact runsMerge_pairwise rest m h

/-- C4: the conversations produced by `parse_conversations` are pairwise
ordered (ascending) by the `timestamp_ms` of their first message, and inside
every conversation the messages are ordered by `timestamp_ms` ascending —
with or without the `group_consecutive` post-pass. -/
theorem c4_output_ordering (um : List (String × String)) (msgs : List RawMessage)
    (t max : Int) (io gc : Bool) :
    List.Pairwise (fun a b => firstTimestamp a ≤ firstTimestamp b)
        (parseConversations um msgs t io max gc) ∧
      ∀ conv ∈ parseConversations um msgs t io max gc,
        List.Pairwise (fun x y => x.timestamp_ms ≤ y.timestamp_ms) conv := by
  obtain ⟨hflat, hne⟩ := segmentedConversations_ordering um msgs t max io
  rw [List.pairwise_flatten] at hflat
  obtain ⟨hin, hcross⟩ := hflat
  unfold parseConversations
  dsimp only
  cases gc with
  | false =>
    rw [if_neg (by simp)]
    constructor
    · refine hcross.imp_of_mem ?_
      intro a b ha hb hab
      cases a with
      | nil => exact absurd rfl (hne [] ha)
      | cons x xs =>
        cases b with
        | nil => exact absurd rfl (hne [] hb)
        | cons y ys => exact hab x (List.mem_cons_self x xs) y (List.mem_cons_self y ys)
    · exact hin
  | true =>
    rw [if_pos rfl]
    constructor
    · rw [List.pairwise_map]
      refine hcross.imp_of_mem ?_
      intro a b ha hb hab
      have hga := group_ne_nil a (hne a ha)
      have hgb := group_ne_nil b (hne b hb)
      cases hca : groupConsecutiveMessages a with
      | nil => exact absurd hca hga
      | cons x xs =>
        cases hcb : groupConsecutiveMessages b with
        | nil => exact absurd hcb hgb
        | cons y ys =>
          obtain ⟨x', hx', hxts⟩ := group_ts_mem a x (by rw [hca]; exact List.mem_cons_self x xs)
          obtain ⟨y', hy', hyts⟩ := group_ts_mem b y (by rw [hcb]; exact List.mem_cons_self y ys)
          show firstTimestamp (x :: xs) ≤ firstTimestamp (y :: ys)
          unfold firstTimestamp
          dsimp only
          rw [hxts, hyts]
          exact hab x' hx' y' hy'
    · intro conv hconv
      obtain ⟨c0, hc0, hmap⟩ := List.mem_map.mp hconv
      rw [← hmap]
      exact group_pairwise_ts c0 (hin c0 hc0)
